import Mathlib

/-!
Verification of the fair mutex unit (src/sync.rs).

The source composes two exclusive locks: `data` (guarding the protected
value) and `next` (a unit-payload ordering gate).  `lock()` acquires
`next`, then `data`, then releases `next` (the temporary `_next` binding
drops at the end of the function body) and returns the `data` guard.

The concurrency behaviour is embedded as a labeled transition system:
each thread has a program counter recording where it is inside `lock()`
(or in its critical section), and each transition models one atomic
event (acquiring or releasing one of the two underlying parking_lot
mutexes, mutating the protected value while holding the guard, dropping
the guard, re-entering `lock()` while still holding a guard, or
terminating abnormally mid-critical-section).  parking_lot mutexes are
modelled as an owner slot plus payload, with no poison flag: parking_lot
does not poison on abnormal termination of the holder, and unwinding
drops the guard, releasing the lock.

The `ReflectDirect` and `Deser` conformance glue is embedded as pure
functions over abstract framework operations (`general_access_immut`,
`general_access_mut`, `T::deser`), recording the sequence of lock events
each method performs.
-/

namespace FairSync

/-- Thread identifier. -/
abbrev Tid := Nat

/-- Model of `parking_lot::Mutex<A>`: an owner slot (`none` = unlocked)
plus the protected payload.  There is no poison flag: parking_lot
mutexes do not poison when a holder terminates abnormally. -/
structure Mutex (A : Type) where
  owner : Option Tid
  val : A

/-- The fair mutex from src/sync.rs: `data` guards the value, `next` is
the unit-payload ordering gate ("next-to-access"). -/
structure FairMutex (A : Type) where
  data : Mutex A
  next : Mutex Unit

/-- `FairMutex::new`: wrap the value in the `data` lock with the gate
unlocked.  A total function: construction has no failure mode. -/
def FairMutex.new (v : A) : FairMutex A :=
  { data := { owner := none, val := v }, next := { owner := none, val := () } }

/-- Program counter of one thread with respect to the fair mutex
protocol.  The states mirror the positions inside `lock()`:
`wantGate` = called `lock()`, about to acquire `next`;
`wantData` = holds `next`, about to acquire `data`;
`holdBoth` = acquired `data`, has not yet released `next`
(the instant before `lock()` returns, when `_next` drops);
`hasGuard` = `lock()` returned, the guard over `data` is live.
`reWantGate`/`reWantData` are the same positions for a reentrant second
call to `lock()` issued while the first guard is still held, and `dead`
is a thread that terminated abnormally mid-critical-section. -/
inductive Pc
  | idle
  | wantGate
  | wantData
  | holdBoth
  | hasGuard
  | reWantGate
  | reWantData
  | dead
deriving DecidableEq

/-- Global state: the fair mutex plus every thread's program counter. -/
structure MState (A : Type) where
  fm : FairMutex A
  pc : Tid → Pc

/-- Initial state: a freshly constructed `FairMutex::new(v)` with every
thread outside the protocol. -/
def initState (v : A) : MState A :=
  { fm := FairMutex.new v, pc := fun _ => Pc.idle }

/-- Atomic events of the protocol, tagged by the acting thread. -/
inductive Label
  | callLock (t : Tid)
  | acqGate (t : Tid)
  | acqData (t : Tid)
  | relGate (t : Tid)
  | work (t : Tid)
  | dropGuard (t : Tid)
  | callLockAgain (t : Tid)
  | reAcqGate (t : Tid)
  | reAcqData (t : Tid)
  | fault (t : Tid)
deriving DecidableEq

/-- The thread performing a label. -/
def Label.tid : Label → Tid
  | .callLock t => t
  | .acqGate t => t
  | .acqData t => t
  | .relGate t => t
  | .work t => t
  | .dropGuard t => t
  | .callLockAgain t => t
  | .reAcqGate t => t
  | .reAcqData t => t
  | .fault t => t

/-- Is the label a critical-section mutation? -/
def Label.isWork : Label → Bool
  | .work _ => true
  | _ => false

/-- Update one thread's program counter. -/
def updPc (pc : Tid → Pc) (t : Tid) (p : Pc) : Tid → Pc :=
  fun u => if u = t then p else pc u

/-- One atomic step.  `crit t` is what thread `t` does to the protected
value in its critical section.  Acquiring a mutex requires it to be
unowned; releasing one requires the releaser to own it.  The program
counters enforce exactly the order of operations written in `lock()`:
acquire `next`, then acquire `data`, then release `next`, then return;
dropping the guard releases `data` only.  `fault` models the holder
terminating abnormally: unwinding drops the guard, releasing `data`
without any poison mark. -/
def step (crit : Tid → A → A) (s : MState A) : Label → Option (MState A)
  | .callLock t =>
      if s.pc t = .idle then
        some { s with pc := updPc s.pc t .wantGate }
      else none
  | .acqGate t =>
      if s.pc t = .wantGate ∧ s.fm.next.owner = none then
        some { fm := { s.fm with next := { s.fm.next with owner := some t } },
               pc := updPc s.pc t .wantData }
      else none
  | .acqData t =>
      if s.pc t = .wantData ∧ s.fm.data.owner = none then
        some { fm := { s.fm with data := { s.fm.data with owner := some t } },
               pc := updPc s.pc t .holdBoth }
      else none
  | .relGate t =>
      if s.pc t = .holdBoth ∧ s.fm.next.owner = some t then
        some { fm := { s.fm with next := { s.fm.next with owner := none } },
               pc := updPc s.pc t .hasGuard }
      else none
  | .work t =>
      if s.pc t = .hasGuard then
        some { s with fm := { s.fm with data := { s.fm.data with val := crit t s.fm.data.val } } }
      else none
  | .dropGuard t =>
      if s.pc t = .hasGuard ∧ s.fm.data.owner = some t then
        some { fm := { s.fm with data := { s.fm.data with owner := none } },
               pc := updPc s.pc t .idle }
      else none
  | .callLockAgain t =>
      if s.pc t = .hasGuard then
        some { s with pc := updPc s.pc t .reWantGate }
      else none
  | .reAcqGate t =>
      if s.pc t = .reWantGate ∧ s.fm.next.owner = none then
        some { fm := { s.fm with next := { s.fm.next with owner := some t } },
               pc := updPc s.pc t .reWantData }
      else none
  | .reAcqData t =>
      if s.pc t = .reWantData ∧ s.fm.data.owner = none then
        some { fm := { s.fm with data := { s.fm.data with owner := some t } },
               pc := updPc s.pc t .hasGuard }
      else none
  | .fault t =>
      if s.pc t = .hasGuard ∧ s.fm.data.owner = some t then
        some { fm := { s.fm with data := { s.fm.data with owner := none } },
               pc := updPc s.pc t .dead }
      else none

/-- Run a list of labels from a state; `none` as soon as a label is not
enabled (the acting thread would block or the event is impossible). -/
def run (crit : Tid → A → A) : MState A → List Label → Option (MState A)
  | s, [] => some s
  | s, l :: ls =>
      match step crit s l with
      | none => none
      | some s2 => run crit s2 ls

/-- The event sequence of one successful call to `lock()` by thread
`t`: acquire `next`, acquire `data`, release `next`. -/
def lockCallTrace (t : Tid) : List Label :=
  [.callLock t, .acqGate t, .acqData t, .relGate t]

/-- One full lock / use / release cycle by thread `t`. -/
def cycleTrace (t : Tid) : List Label :=
  lockCallTrace t ++ [.work t, .dropGuard t]

/-- Thread `t` holds the live guard over the protected value: it is
between the acquisition of `data` and the release of its guard
(including the reentrant states, where the first guard is still held). -/
def holdsGuard (s : MState A) (t : Tid) : Prop :=
  s.pc t = .holdBoth ∨ s.pc t = .hasGuard ∨ s.pc t = .reWantGate ∨ s.pc t = .reWantData

/-- Protocol invariant: (1) a thread between gate acquisition and gate
release owns the gate; (2) a thread holds the live guard exactly when it
owns the `data` lock. -/
def Inv (s : MState A) : Prop :=
  (∀ t, s.pc t = .wantData ∨ s.pc t = .holdBoth → s.fm.next.owner = some t) ∧
  (∀ t, holdsGuard s t ↔ s.fm.data.owner = some t)

/-- Per-thread count of critical-section mutations in a trace. -/
def workCount (tr : List Label) (t : Tid) : Nat :=
  tr.countP (fun l => l == Label.work t)

/-- Reentrant scenario: thread 0 completes `lock()`, then calls
`lock()` again without dropping its guard, and acquires the gate for
the second time.  The next step of the second call would be acquiring
`data`, which thread 0 itself still owns. -/
def dlTrace : List Label :=
  lockCallTrace 0 ++ [.callLockAgain 0, .reAcqGate 0]

/-- Correct sequential usage: one thread performs lock, use, release
twice in sequence. -/
def seqTrace2 : List Label :=
  cycleTrace 0 ++ cycleTrace 0

/-- Fault scenario: thread 0 completes `lock()`, mutates the value
mid-critical-section, then terminates abnormally, abandoning the guard
without an explicit release. -/
def faultTrace : List Label :=
  lockCallTrace 0 ++ [.work 0, .fault 0]

/-- Fairness demonstration: thread 0 completes step 1 (acquires the
gate) at position 1; thread 1 begins step 1 at position 2 and acquires
`data` at position 7, after thread 0 did at position 3. -/
def c1DemoTrace : List Label :=
  [.callLock 0, .acqGate 0, .callLock 1, .acqData 0, .relGate 0,
   .acqGate 1, .dropGuard 0, .acqData 1]

end FairSync

namespace FairSync

/-! ## Embedding of the `ReflectDirect` and `Deser` glue -/

/-- Modelled from the external `interact` crate: the climber error type.
The source distinguishes only the `NeedMutPath` variant (the signal that
a non-mutating traversal is insufficient); every other variant is
abstracted as `other`. -/
inductive ClimbError
  | NeedMutPath
  | other (code : Nat)
deriving DecidableEq

/-- Observable lock events performed by a `ReflectDirect` method:
the three events of `lock()` on the underlying fair mutex, the release
of the `data` lock when the guard drops, and the two framework
traversals performed while the guard is held. -/
inductive LockEv
  | acqGate
  | acqData
  | relGate
  | relData
  | accImmut
  | accMut
deriving DecidableEq

/-- Is the event a framework traversal performed under the guard? -/
def LockEv.isAccess : LockEv → Bool
  | .accImmut => true
  | .accMut => true
  | _ => false

/-- The lock events of one call to `lock()`. -/
def lockEvs : List LockEv := [.acqGate, .acqData, .relGate]

/-- The lock events of one complete attempt: a call to `lock()`, one
traversal under the guard, then the guard drop releasing `data`. -/
def attemptEvs (acc : LockEv) : List LockEv := lockEvs ++ [acc, .relData]

/-- Result of a climber method: the value returned to the framework,
the final climber state, the final protected value, and the sequence of
lock events performed. -/
structure ClimbOutcome (C T N : Type) where
  result : Except ClimbError (Option N)
  climber : C
  value : T
  events : List LockEv

/-- Embedding of `ReflectDirect::immut_climber` for `FairMutex<T>`.
`gai` is `Climber::general_access_immut` (updates the climber, cannot
change the value) and `gam` is `Climber::general_access_mut` (updates
climber and value); both are abstract framework operations.  The source
saves the climber, locks, attempts the non-mutating traversal, unlocks
(the scoped `locked` binding drops at the end of the block), and — only
when the attempt failed with `ClimbError::NeedMutPath` — restores the
saved climber, locks again and attempts the mutating traversal. -/
def immut_climber (gai : C → T → C × Except ClimbError N)
    (gam : C → T → C × T × Except ClimbError N) (c : C) (v : T) :
    ClimbOutcome C T N :=
  let save := c
  let att1 := gai c v
  let retval : Except ClimbError (Option N) := att1.2.map Option.some
  match retval with
  | .error .NeedMutPath =>
      let att2 := gam save v
      { result := att2.2.2.map Option.some
        climber := att2.1
        value := att2.2.1
        events := attemptEvs .accImmut ++ attemptEvs .accMut }
  | r =>
      { result := r
        climber := att1.1
        value := v
        events := attemptEvs .accImmut }

/-- Embedding of `ReflectDirect::mut_climber` for `FairMutex<T>`: even
though the caller holds `&mut self`, the value is obtained through
`self.lock()`; a single mutating traversal is attempted and its result
is passed through unchanged. -/
def mut_climber (gam : C → T → C × T × Except ClimbError N) (c : C) (v : T) :
    ClimbOutcome C T N :=
  let att := gam c v
  { result := att.2.2.map Option.some
    climber := att.1
    value := att.2.1
    events := attemptEvs .accMut }

/-- Depth of the `data` lock after each prefix of an event list
(starting from depth `d`): used to state that the lock is never held
across both traversal attempts simultaneously. -/
def dataDepths : List LockEv → Nat → List Nat
  | [], d => [d]
  | e :: es, d =>
      d :: dataDepths es (match e with
        | .acqData => d + 1
        | .relData => d - 1
        | _ => d)

/-- Embedding of the `Deser` impl for `FairMutex<T>`: deserialize a `T`
from the tracker (`tdeser` is the abstract `T::deser`, threading the
tracker state), propagate its error with `?`, and on success wrap the
value with `FairMutex::new`. -/
def FairMutex.deser (tdeser : Tk → Except E (T × Tk)) (tk : Tk) :
    Except E (FairMutex T × Tk) :=
  match tdeser tk with
  | .error e => .error e
  | .ok (v, tk2) => .ok (FairMutex.new v, tk2)

end FairSync

namespace FairSync

/-! ## Theorems about the conformance glue -/

/-- Computation rule for `Except.map` on an error. -/
theorem exceptMap_error {A B E : Type} (f : A → B) (e : E) :
    Except.map f (Except.error e : Except E A) = .error e := rfl

/-- Computation rule for `Except.map` on a success. -/
theorem exceptMap_ok {A B E : Type} (f : A → B) (a : A) :
    Except.map f (Except.ok a : Except E A) = .ok (f a) := rfl

/-- C9: the `Deser` impl is a thin pass-through: `FairMutex::deser`
succeeds with `FairMutex::new v` exactly when `T::deser` succeeds with
`v` on the tracker, and fails with exactly `T::deser`'s error when it
fails. -/
theorem C9_deser_pass_through :
    ∀ (Tk E T : Type) (tdeser : Tk → Except E (T × Tk)) (tk : Tk),
      (∀ v tk2, tdeser tk = .ok (v, tk2) →
        FairMutex.deser tdeser tk = .ok (FairMutex.new v, tk2)) ∧
      (∀ e, tdeser tk = .error e → FairMutex.deser tdeser tk = .error e) ∧
      (∀ m tk2, FairMutex.deser tdeser tk = .ok (m, tk2) →
        ∃ v, tdeser tk = .ok (v, tk2) ∧ m = FairMutex.new v) ∧
      (∀ e, FairMutex.deser tdeser tk = .error e → tdeser tk = .error e) := by
  intro Tk E T tdeser tk
  refine ⟨?_, ?_, ?_, ?_⟩
  · intro v tk2 h
    simp [FairMutex.deser, h]
  · intro e h
    simp [FairMutex.deser, h]
  · intro m tk2 h
    rcases hd : tdeser tk with e | vt
    · simp [FairMutex.deser, hd] at h
    · obtain ⟨v, tk3⟩ := vt
      simp [FairMutex.deser, hd] at h
      exact ⟨v, by rw [h.2], h.1.symm⟩
  · intro e h
    rcases hd : tdeser tk with e2 | vt
    · simp [FairMutex.deser, hd] at h
      simp [h]
    · obtain ⟨v, tk3⟩ := vt
      simp [FairMutex.deser, hd] at h

/-- Witness for C9 at concrete inputs: a succeeding and a failing
deserializer. -/
theorem C9_deser_pass_through_witness :
    FairMutex.deser (fun n : Nat => (Except.ok (n + 1, n) : Except Nat (Nat × Nat))) 5
      = .ok (FairMutex.new 6, 5) ∧
    FairMutex.deser (fun _ : Nat => (Except.error 7 : Except Nat (Nat × Nat))) 5
      = .error 7 := by
  constructor
  · exact (C9_deser_pass_through Nat Nat Nat (fun n => .ok (n + 1, n)) 5).1 6 5 rfl
  · exact (C9_deser_pass_through Nat Nat Nat (fun _ => .error 7) 5).2.1 7 rfl

/-- C10: `mut_climber` still routes through the full `lock()` event
sequence despite the caller's exclusive `&mut self` access, performs
exactly one traversal (the mutating one), and passes any error of that
traversal — `NeedMutPath` included — through unchanged, with no retry. -/
theorem C10_mut_climber_single_attempt :
    ∀ (C T N : Type) (gam : C → T → C × T × Except ClimbError N) (c : C) (v : T),
      (mut_climber gam c v).events = lockEvs ++ [LockEv.accMut, LockEv.relData] ∧
      (mut_climber gam c v).events.countP LockEv.isAccess = 1 ∧
      (mut_climber gam c v).result = ((gam c v).2.2).map Option.some ∧
      (∀ e, (gam c v).2.2 = .error e → (mut_climber gam c v).result = .error e) ∧
      (mut_climber gam c v).climber = (gam c v).1 ∧
      (mut_climber gam c v).value = (gam c v).2.1 := by
  intro C T N gam c v
  refine ⟨rfl, rfl, rfl, ?_, rfl, rfl⟩
  intro e h
  simp [mut_climber, h, exceptMap_error]

/-- Witness for C10: a mutating traversal failing with `NeedMutPath` is
surfaced unchanged by `mut_climber`. -/
theorem C10_mut_climber_single_attempt_witness :
    (mut_climber (fun (c : Nat) (v : Nat) => (c + 1, v + 1,
        (Except.error ClimbError.NeedMutPath : Except ClimbError Nat))) 0 0).result
      = .error .NeedMutPath ∧
    (mut_climber (fun (c : Nat) (v : Nat) => (c + 1, v + 1,
        (Except.error ClimbError.NeedMutPath : Except ClimbError Nat))) 0 0).events
      = lockEvs ++ [LockEv.accMut, LockEv.relData] := by
  have h := C10_mut_climber_single_attempt Nat Nat Nat
    (fun c v => (c + 1, v + 1, .error .NeedMutPath)) 0 0
  exact ⟨h.2.2.2.1 .NeedMutPath rfl, h.1⟩

/-- C7: the two-attempt protocol of `immut_climber`: the mutating
traversal is attempted exactly when the non-mutating attempt fails with
`NeedMutPath`; in that case the climber used for the second attempt is
the saved pre-attempt climber `c` (not the climber state left by the
failed first attempt), and the event trace shows the `data` lock
released at the end of the first attempt and reacquired by a second
full `lock()` call, the depth of the `data` lock never exceeding one. -/
theorem C7_two_attempt_protocol :
    ∀ (C T N : Type) (gai : C → T → C × Except ClimbError N)
      (gam : C → T → C × T × Except ClimbError N) (c : C) (v : T),
      (LockEv.accMut ∈ (immut_climber gai gam c v).events ↔
        (gai c v).2 = .error .NeedMutPath) ∧
      ((gai c v).2 = .error .NeedMutPath →
        (immut_climber gai gam c v).result = ((gam c v).2.2).map Option.some ∧
        (immut_climber gai gam c v).climber = (gam c v).1 ∧
        (immut_climber gai gam c v).value = (gam c v).2.1 ∧
        (immut_climber gai gam c v).events = attemptEvs .accImmut ++ attemptEvs .accMut) ∧
      ((gai c v).2 ≠ .error .NeedMutPath →
        (immut_climber gai gam c v).result = ((gai c v).2).map Option.some ∧
        (immut_climber gai gam c v).climber = (gai c v).1 ∧
        (immut_climber gai gam c v).value = v ∧
        (immut_climber gai gam c v).events = attemptEvs .accImmut) ∧
      (∀ d ∈ dataDepths (immut_climber gai gam c v).events 0, d ≤ 1) := by
  intro C T N gai gam c v
  rcases h : (gai c v).2 with e | n
  · cases e
    · refine ⟨?_, ?_, ?_, ?_⟩
      · simp [immut_climber, h, attemptEvs, lockEvs, exceptMap_error]
      · intro _
        refine ⟨?_, ?_, ?_, ?_⟩ <;> simp [immut_climber, h, exceptMap_error]
      · intro hne
        exact absurd rfl hne
      · simp only [immut_climber, h, exceptMap_error]
        decide
    · refine ⟨?_, ?_, ?_, ?_⟩
      · simp [immut_climber, h, attemptEvs, lockEvs, exceptMap_error]
      · intro hcontra
        simp at hcontra
      · intro _
        refine ⟨?_, ?_, ?_, ?_⟩ <;> simp [immut_climber, h, exceptMap_error]
      · simp only [immut_climber, h, exceptMap_error]
        decide
  · refine ⟨?_, ?_, ?_, ?_⟩
    · simp [immut_climber, h, attemptEvs, lockEvs, exceptMap_ok]
    · intro hcontra
      simp at hcontra
    · intro _
      refine ⟨?_, ?_, ?_, ?_⟩ <;> simp [immut_climber, h, exceptMap_ok]
    · simp only [immut_climber, h, exceptMap_ok]
      decide

/-- Witness for C7: with a first attempt failing `NeedMutPath`, the
mutating retry runs against the saved climber and the event trace shows
two disjoint lock-hold periods. -/
theorem C7_two_attempt_protocol_witness :
    (immut_climber (fun (c : Nat) (_ : Nat) => (c + 9,
        (Except.error ClimbError.NeedMutPath : Except ClimbError Nat)))
        (fun (c : Nat) (v : Nat) => (c + 1, v + 1, (Except.ok 5 : Except ClimbError Nat)))
        0 0).result = .ok (some 5) ∧
    (immut_climber (fun (c : Nat) (_ : Nat) => (c + 9,
        (Except.error ClimbError.NeedMutPath : Except ClimbError Nat)))
        (fun (c : Nat) (v : Nat) => (c + 1, v + 1, (Except.ok 5 : Except ClimbError Nat)))
        0 0).climber = 1 ∧
    (immut_climber (fun (c : Nat) (_ : Nat) => (c + 9,
        (Except.error ClimbError.NeedMutPath : Except ClimbError Nat)))
        (fun (c : Nat) (v : Nat) => (c + 1, v + 1, (Except.ok 5 : Except ClimbError Nat)))
        0 0).events = attemptEvs .accImmut ++ attemptEvs .accMut := by
  have h := C7_two_attempt_protocol Nat Nat Nat
    (fun c _ => (c + 9, .error .NeedMutPath))
    (fun c v => (c + 1, v + 1, .ok 5)) 0 0
  exact ⟨(h.2.1 rfl).1, (h.2.1 rfl).2.1, (h.2.1 rfl).2.2.2⟩

/-- C8 counterexample: a first-attempt traversal error other than
`NeedMutPath` is surfaced unchanged to the caller by `immut_climber`,
and no mutating retry is attempted — refuting the claim that every
framework-reported traversal error is recovered locally and never
surfaced. -/
theorem C8_counterexample :
    (immut_climber (fun (c : Nat) (_ : Nat) => (c,
        (Except.error (ClimbError.other 0) : Except ClimbError Nat)))
        (fun (c : Nat) (v : Nat) => (c, v, (Except.ok 0 : Except ClimbError Nat)))
        0 0).result = .error (.other 0) ∧
    LockEv.accMut ∉ (immut_climber (fun (c : Nat) (_ : Nat) => (c,
        (Except.error (ClimbError.other 0) : Except ClimbError Nat)))
        (fun (c : Nat) (v : Nat) => (c, v, (Except.ok 0 : Except ClimbError Nat)))
        0 0).events := by
  exact ⟨rfl, by decide⟩

/-- C8 amended: only a first-attempt failure with `NeedMutPath` is
recovered locally by retrying with the mutating traversal; any other
first-attempt error, and any error reported by the retry itself, is
surfaced unchanged past the reflection boundary. -/
theorem C8_error_containment_amended :
    ∀ (C T N : Type) (gai : C → T → C × Except ClimbError N)
      (gam : C → T → C × T × Except ClimbError N) (c : C) (v : T),
      (∀ e, (gai c v).2 = .error e → e ≠ .NeedMutPath →
        (immut_climber gai gam c v).result = .error e ∧
        LockEv.accMut ∉ (immut_climber gai gam c v).events) ∧
      ((gai c v).2 = .error .NeedMutPath →
        LockEv.accMut ∈ (immut_climber gai gam c v).events) ∧
      (∀ e2, (gai c v).2 = .error .NeedMutPath → (gam c v).2.2 = .error e2 →
        (immut_climber gai gam c v).result = .error e2) := by
  intro C T N gai gam c v
  refine ⟨?_, ?_, ?_⟩
  · intro e h hne
    cases e
    · exact absurd rfl hne
    · exact ⟨by simp [immut_climber, h, exceptMap_error, exceptMap_ok], by simp [immut_climber, h, attemptEvs, lockEvs, exceptMap_error, exceptMap_ok]⟩
  · intro h
    simp [immut_climber, h, attemptEvs, lockEvs, exceptMap_error, exceptMap_ok]
  · intro e2 h h2
    simp [immut_climber, h, h2, exceptMap_error]

/-- Witness for the amended C8: a non-`NeedMutPath` error surfaces with
no retry, and a retry error surfaces after a `NeedMutPath` first
attempt. -/
theorem C8_error_containment_amended_witness :
    (immut_climber (fun (c : Nat) (_ : Nat) => (c,
        (Except.error (ClimbError.other 3) : Except ClimbError Nat)))
        (fun (c : Nat) (v : Nat) => (c, v, (Except.ok 0 : Except ClimbError Nat)))
        0 0).result = .error (.other 3) ∧
    (immut_climber (fun (c : Nat) (_ : Nat) => (c,
        (Except.error ClimbError.NeedMutPath : Except ClimbError Nat)))
        (fun (c : Nat) (v : Nat) => (c, v, (Except.error (ClimbError.other 4) : Except ClimbError Nat)))
        0 0).result = .error (.other 4) := by
  constructor
  · exact ((C8_error_containment_amended Nat Nat Nat
      (fun c _ => (c, .error (.other 3))) (fun c v => (c, v, .ok 0)) 0 0).1
      (.other 3) rfl (by decide)).1
  · exact (C8_error_containment_amended Nat Nat Nat
      (fun c _ => (c, .error .NeedMutPath)) (fun c v => (c, v, .error (.other 4))) 0 0).2.2
      (.other 4) rfl rfl

end FairSync

namespace FairSync

/-! ## Transition-system infrastructure -/

variable {A : Type}

/-- Characterization of a guarded step equation. -/
theorem iteSome {P : Prop} [Decidable P] {B : Type} {a b : B} :
    ((if P then some a else none) = some b) ↔ P ∧ a = b := by
  by_cases h : P <;> simp [h]

/-- Running a concatenation runs the two parts in sequence. -/
theorem run_append (crit : Tid → A → A) (s : MState A) (a b : List Label) :
    run crit s (a ++ b) = (run crit s a).bind (fun s2 => run crit s2 b) := by
  induction a generalizing s with
  | nil => rfl
  | cons l ls ih =>
      simp only [List.cons_append, run]
      cases step crit s l with
      | none => rfl
      | some s2 => exact ih s2

/-- A single step as a run. -/
theorem run_singleton (crit : Tid → A → A) (s : MState A) (l : Label) :
    run crit s [l] = step crit s l := by
  cases h : step crit s l <;> simp [run, h]

/-- Every prefix of a successful run succeeds. -/
theorem run_take_some {crit : Tid → A → A} {s s2 : MState A} {tr : List Label}
    (h : run crit s tr = some s2) (k : Nat) :
    ∃ sk, run crit s (tr.take k) = some sk := by
  have hsplit : tr = tr.take k ++ tr.drop k := (List.take_append_drop k tr).symm
  rw [hsplit, run_append] at h
  cases hk : run crit s (tr.take k) with
  | none => rw [hk] at h; cases h
  | some sk => exact ⟨sk, rfl⟩

/-- In a successful run, the step at every position of the trace is
taken from the state reached by the prefix before it. -/
theorem step_at {crit : Tid → A → A} {s s2 : MState A} {tr : List Label} {k : Nat}
    {l : Label} (h : run crit s tr = some s2) (hk : tr[k]? = some l)
    {sk : MState A} (hsk : run crit s (tr.take k) = some sk) :
    ∃ sk2, step crit sk l = some sk2 ∧ run crit s (tr.take (k + 1)) = some sk2 := by
  have htake : tr.take (k + 1) = tr.take k ++ [l] := by
    rw [List.take_succ, hk]
    rfl
  obtain ⟨sk1, hsk1⟩ := run_take_some h (k + 1)
  have hsk1b := hsk1
  rw [htake, run_append, hsk] at hsk1b
  simp only [Option.bind_some, run_singleton] at hsk1b
  exact ⟨sk1, hsk1b, hsk1⟩

end FairSync

namespace FairSync

variable {A : Type} {crit : Tid → A → A} {s s2 : MState A} {t : Tid}

/-- What a `callLock` step requires and does. -/
theorem step_callLock_elim (h : step crit s (.callLock t) = some s2) :
    s.pc t = .idle ∧ s2.fm = s.fm ∧ s2.pc = updPc s.pc t .wantGate := by
  simp only [step, iteSome] at h
  obtain ⟨h1, h2⟩ := h
  subst h2
  exact ⟨h1, rfl, rfl⟩

/-- What an `acqGate` step requires and does. -/
theorem step_acqGate_elim (h : step crit s (.acqGate t) = some s2) :
    s.pc t = .wantGate ∧ s.fm.next.owner = none ∧ s2.fm.next.owner = some t ∧
      s2.fm.data = s.fm.data ∧ s2.pc = updPc s.pc t .wantData := by
  simp only [step, iteSome] at h
  obtain ⟨⟨h1, h2⟩, h3⟩ := h
  subst h3
  exact ⟨h1, h2, rfl, rfl, rfl⟩

/-- What an `acqData` step requires and does. -/
theorem step_acqData_elim (h : step crit s (.acqData t) = some s2) :
    s.pc t = .wantData ∧ s.fm.data.owner = none ∧ s2.fm.data.owner = some t ∧
      s2.fm.data.val = s.fm.data.val ∧ s2.fm.next = s.fm.next ∧
      s2.pc = updPc s.pc t .holdBoth := by
  simp only [step, iteSome] at h
  obtain ⟨⟨h1, h2⟩, h3⟩ := h
  subst h3
  exact ⟨h1, h2, rfl, rfl, rfl, rfl⟩

/-- What a `relGate` step requires and does. -/
theorem step_relGate_elim (h : step crit s (.relGate t) = some s2) :
    s.pc t = .holdBoth ∧ s.fm.next.owner = some t ∧ s2.fm.next.owner = none ∧
      s2.fm.data = s.fm.data ∧ s2.pc = updPc s.pc t .hasGuard := by
  simp only [step, iteSome] at h
  obtain ⟨⟨h1, h2⟩, h3⟩ := h
  subst h3
  exact ⟨h1, h2, rfl, rfl, rfl⟩

/-- What a `work` step requires and does. -/
theorem step_work_elim (h : step crit s (.work t) = some s2) :
    s.pc t = .hasGuard ∧ s2.fm.data.owner = s.fm.data.owner ∧
      s2.fm.data.val = crit t s.fm.data.val ∧ s2.fm.next = s.fm.next ∧
      s2.pc = s.pc := by
  simp only [step, iteSome] at h
  obtain ⟨h1, h2⟩ := h
  subst h2
  exact ⟨h1, rfl, rfl, rfl, rfl⟩

/-- What a `dropGuard` step requires and does. -/
theorem step_dropGuard_elim (h : step crit s (.dropGuard t) = some s2) :
    s.pc t = .hasGuard ∧ s.fm.data.owner = some t ∧ s2.fm.data.owner = none ∧
      s2.fm.data.val = s.fm.data.val ∧ s2.fm.next = s.fm.next ∧
      s2.pc = updPc s.pc t .idle := by
  simp only [step, iteSome] at h
  obtain ⟨⟨h1, h2⟩, h3⟩ := h
  subst h3
  exact ⟨h1, h2, rfl, rfl, rfl, rfl⟩

/-- What a `callLockAgain` step requires and does. -/
theorem step_callLockAgain_elim (h : step crit s (.callLockAgain t) = some s2) :
    s.pc t = .hasGuard ∧ s2.fm = s.fm ∧ s2.pc = updPc s.pc t .reWantGate := by
  simp only [step, iteSome] at h
  obtain ⟨h1, h2⟩ := h
  subst h2
  exact ⟨h1, rfl, rfl⟩

/-- What a `reAcqGate` step requires and does. -/
theorem step_reAcqGate_elim (h : step crit s (.reAcqGate t) = some s2) :
    s.pc t = .reWantGate ∧ s.fm.next.owner = none ∧ s2.fm.next.owner = some t ∧
      s2.fm.data = s.fm.data ∧ s2.pc = updPc s.pc t .reWantData := by
  simp only [step, iteSome] at h
  obtain ⟨⟨h1, h2⟩, h3⟩ := h
  subst h3
  exact ⟨h1, h2, rfl, rfl, rfl⟩

/-- What a `reAcqData` step requires and does. -/
theorem step_reAcqData_elim (h : step crit s (.reAcqData t) = some s2) :
    s.pc t = .reWantData ∧ s.fm.data.owner = none ∧ s2.fm.data.owner = some t ∧
      s2.fm.data.val = s.fm.data.val ∧ s2.fm.next = s.fm.next ∧
      s2.pc = updPc s.pc t .hasGuard := by
  simp only [step, iteSome] at h
  obtain ⟨⟨h1, h2⟩, h3⟩ := h
  subst h3
  exact ⟨h1, h2, rfl, rfl, rfl, rfl⟩

/-- What a `fault` step requires and does. -/
theorem step_fault_elim (h : step crit s (.fault t) = some s2) :
    s.pc t = .hasGuard ∧ s.fm.data.owner = some t ∧ s2.fm.data.owner = none ∧
      s2.fm.data.val = s.fm.data.val ∧ s2.fm.next = s.fm.next ∧
      s2.pc = updPc s.pc t .dead := by
  simp only [step, iteSome] at h
  obtain ⟨⟨h1, h2⟩, h3⟩ := h
  subst h3
  exact ⟨h1, h2, rfl, rfl, rfl, rfl⟩

end FairSync

namespace FairSync

variable {A : Type} {crit : Tid → A → A} {s s2 : MState A} {l : Label} {u w : Tid}

/-- A step by one thread never changes another thread's position. -/
theorem step_pc_other (h : step crit s l = some s2) (ht : l.tid ≠ u) :
    s2.pc u = s.pc u := by
  have hut : ¬ u = l.tid := fun hh => ht hh.symm
  cases l with
  | callLock t => rw [(step_callLock_elim h).2.2]; simp [updPc, Label.tid] at hut ⊢; simp [hut]
  | acqGate t => rw [(step_acqGate_elim h).2.2.2.2]; simp [updPc, Label.tid] at hut ⊢; simp [hut]
  | acqData t => rw [(step_acqData_elim h).2.2.2.2.2]; simp [updPc, Label.tid] at hut ⊢; simp [hut]
  | relGate t => rw [(step_relGate_elim h).2.2.2.2]; simp [updPc, Label.tid] at hut ⊢; simp [hut]
  | work t => rw [(step_work_elim h).2.2.2.2]
  | dropGuard t => rw [(step_dropGuard_elim h).2.2.2.2.2]; simp [updPc, Label.tid] at hut ⊢; simp [hut]
  | callLockAgain t => rw [(step_callLockAgain_elim h).2.2]; simp [updPc, Label.tid] at hut ⊢; simp [hut]
  | reAcqGate t => rw [(step_reAcqGate_elim h).2.2.2.2]; simp [updPc, Label.tid] at hut ⊢; simp [hut]
  | reAcqData t => rw [(step_reAcqData_elim h).2.2.2.2.2]; simp [updPc, Label.tid] at hut ⊢; simp [hut]
  | fault t => rw [(step_fault_elim h).2.2.2.2.2]; simp [updPc, Label.tid] at hut ⊢; simp [hut]

/-- Once thread `w` owns the gate, only its own `relGate` event can
change that: any other enabled step leaves the gate owned by `w`. -/
theorem step_next_stays (h : step crit s l = some s2)
    (hw : s.fm.next.owner = some w) (hne : l ≠ .relGate w) :
    s2.fm.next.owner = some w := by
  cases l with
  | callLock t => rw [(step_callLock_elim h).2.1]; exact hw
  | acqGate t =>
      have := (step_acqGate_elim h).2.1
      rw [hw] at this
      cases this
  | acqData t => rw [(step_acqData_elim h).2.2.2.2.1]; exact hw
  | relGate t =>
      have hown := (step_relGate_elim h).2.1
      rw [hw] at hown
      cases hown
      exact absurd rfl hne
  | work t => rw [(step_work_elim h).2.2.2.1]; exact hw
  | dropGuard t => rw [(step_dropGuard_elim h).2.2.2.2.1]; exact hw
  | callLockAgain t => rw [(step_callLockAgain_elim h).2.1]; exact hw
  | reAcqGate t =>
      have := (step_reAcqGate_elim h).2.1
      rw [hw] at this
      cases this
  | reAcqData t => rw [(step_reAcqData_elim h).2.2.2.2.1]; exact hw
  | fault t => rw [(step_fault_elim h).2.2.2.2.1]; exact hw

/-- The only event that moves a thread into `wantData` is its own
`acqGate`. -/
theorem step_enters_wantData (h : step crit s l = some s2)
    (hpre : s.pc u ≠ .wantData) (hpost : s2.pc u = .wantData) :
    l = .acqGate u := by
  by_cases ht : l.tid = u
  case neg => exact absurd (step_pc_other h ht ▸ hpost) hpre
  cases l with
  | callLock t =>
      rw [(step_callLock_elim h).2.2] at hpost
      simp only [Label.tid] at ht
      subst ht
      simp [updPc] at hpost
  | acqGate t =>
      simp only [Label.tid] at ht
      rw [ht]
  | acqData t =>
      rw [(step_acqData_elim h).2.2.2.2.2] at hpost
      simp only [Label.tid] at ht
      subst ht
      simp [updPc] at hpost
  | relGate t =>
      rw [(step_relGate_elim h).2.2.2.2] at hpost
      simp only [Label.tid] at ht
      subst ht
      simp [updPc] at hpost
  | work t =>
      rw [(step_work_elim h).2.2.2.2] at hpost
      exact absurd hpost hpre
  | dropGuard t =>
      rw [(step_dropGuard_elim h).2.2.2.2.2] at hpost
      simp only [Label.tid] at ht
      subst ht
      simp [updPc] at hpost
  | callLockAgain t =>
      rw [(step_callLockAgain_elim h).2.2] at hpost
      simp only [Label.tid] at ht
      subst ht
      simp [updPc] at hpost
  | reAcqGate t =>
      rw [(step_reAcqGate_elim h).2.2.2.2] at hpost
      simp only [Label.tid] at ht
      subst ht
      simp [updPc] at hpost
  | reAcqData t =>
      rw [(step_reAcqData_elim h).2.2.2.2.2] at hpost
      simp only [Label.tid] at ht
      subst ht
      simp [updPc] at hpost
  | fault t =>
      rw [(step_fault_elim h).2.2.2.2.2] at hpost
      simp only [Label.tid] at ht
      subst ht
      simp [updPc] at hpost

/-- The only event that moves a thread into `holdBoth` is its own
`acqData`. -/
theorem step_enters_holdBoth (h : step crit s l = some s2)
    (hpre : s.pc u ≠ .holdBoth) (hpost : s2.pc u = .holdBoth) :
    l = .acqData u := by
  by_cases ht : l.tid = u
  case neg => exact absurd (step_pc_other h ht ▸ hpost) hpre
  cases l with
  | callLock t =>
      rw [(step_callLock_elim h).2.2] at hpost
      simp only [Label.tid] at ht
      subst ht
      simp [updPc] at hpost
  | acqGate t =>
      rw [(step_acqGate_elim h).2.2.2.2] at hpost
      simp only [Label.tid] at ht
      subst ht
      simp [updPc] at hpost
  | acqData t =>
      simp only [Label.tid] at ht
      rw [ht]
  | relGate t =>
      rw [(step_relGate_elim h).2.2.2.2] at hpost
      simp only [Label.tid] at ht
      subst ht
      simp [updPc] at hpost
  | work t =>
      rw [(step_work_elim h).2.2.2.2] at hpost
      exact absurd hpost hpre
  | dropGuard t =>
      rw [(step_dropGuard_elim h).2.2.2.2.2] at hpost
      simp only [Label.tid] at ht
      subst ht
      simp [updPc] at hpost
  | callLockAgain t =>
      rw [(step_callLockAgain_elim h).2.2] at hpost
      simp only [Label.tid] at ht
      subst ht
      simp [updPc] at hpost
  | reAcqGate t =>
      rw [(step_reAcqGate_elim h).2.2.2.2] at hpost
      simp only [Label.tid] at ht
      subst ht
      simp [updPc] at hpost
  | reAcqData t =>
      rw [(step_reAcqData_elim h).2.2.2.2.2] at hpost
      simp only [Label.tid] at ht
      subst ht
      simp [updPc] at hpost
  | fault t =>
      rw [(step_fault_elim h).2.2.2.2.2] at hpost
      simp only [Label.tid] at ht
      subst ht
      simp [updPc] at hpost

/-- Discrete crossing: a predicate false at `a` and true at `b ≥ a`
becomes true across some step in between. -/
theorem natCross (P : Nat → Prop) (a b : Nat) (hab : a ≤ b)
    (ha : ¬ P a) (hb : P b) :
    ∃ g, a ≤ g ∧ g < b ∧ ¬ P g ∧ P (g + 1) := by
  induction b with
  | zero =>
      have h0 : a = 0 := Nat.le_zero.mp hab
      subst h0
      exact absurd hb ha
  | succ b ih =>
      by_cases hb2 : a ≤ b
      · by_cases hPb : P b
        · obtain ⟨g, hg1, hg2, hg3, hg4⟩ := ih hb2 hPb
          exact ⟨g, hg1, Nat.lt_succ_of_lt hg2, hg3, hg4⟩
        · exact ⟨b, hb2, Nat.lt_succ_self b, hPb, hb⟩
      · have : a = b + 1 := by omega
        subst this
        exact absurd hb ha

end FairSync

namespace FairSync

variable {A : Type} {crit : Tid → A → A} {s s2 : MState A} {l : Label} {t u : Tid}

/-- A thread whose position is outside the guard-holding states does
not own the `data` lock. -/
theorem owner_ne_of_pc (hinv : Inv s) (h1 : s.pc t ≠ .holdBoth)
    (h2 : s.pc t ≠ .hasGuard) (h3 : s.pc t ≠ .reWantGate)
    (h4 : s.pc t ≠ .reWantData) : s.fm.data.owner ≠ some t := by
  intro hcon
  have hg := (hinv.2 t).mpr hcon
  simp only [holdsGuard] at hg
  rcases hg with h | h | h | h
  exacts [h1 h, h2 h, h3 h, h4 h]

/-- The invariant holds initially. -/
theorem inv_init (v : A) : Inv (initState v) := by
  constructor
  · intro t ht
    simp [initState] at ht
  · intro t
    simp [initState, holdsGuard, FairMutex.new]

/-- The invariant is preserved by every enabled step. -/
theorem inv_step (h : step crit s l = some s2) (hinv : Inv s) : Inv s2 := by
  cases l with
  | callLock t =>
      obtain ⟨hpc, hfm, hpc2⟩ := step_callLock_elim h
      constructor
      · intro u hu
        rw [hpc2] at hu
        rw [hfm]
        by_cases hut : u = t
        · rw [hut] at hu
          simp [updPc] at hu
        · simp only [updPc, if_neg hut] at hu
          exact hinv.1 u hu
      · intro u
        rw [hfm]
        by_cases hut : u = t
        · rw [hut]
          have hng : s.fm.data.owner ≠ some t :=
            owner_ne_of_pc hinv (by simp [hpc]) (by simp [hpc]) (by simp [hpc]) (by simp [hpc])
          simp [holdsGuard, hpc2, updPc, hng]
        · have heq : s2.pc u = s.pc u := by rw [hpc2]; simp [updPc, hut]
          simp only [holdsGuard, heq]
          exact hinv.2 u
  | acqGate t =>
      obtain ⟨hpc, hnone, hown2, hdata2, hpc2⟩ := step_acqGate_elim h
      constructor
      · intro u hu
        rw [hpc2] at hu
        by_cases hut : u = t
        · rw [hut]
          exact hown2
        · simp only [updPc, if_neg hut] at hu
          have hcon := hinv.1 u hu
          rw [hnone] at hcon
          cases hcon
      · intro u
        have hdo : s2.fm.data.owner = s.fm.data.owner := by rw [hdata2]
        rw [hdo]
        by_cases hut : u = t
        · rw [hut]
          have hng : s.fm.data.owner ≠ some t :=
            owner_ne_of_pc hinv (by simp [hpc]) (by simp [hpc]) (by simp [hpc]) (by simp [hpc])
          simp [holdsGuard, hpc2, updPc, hng]
        · have heq : s2.pc u = s.pc u := by rw [hpc2]; simp [updPc, hut]
          simp only [holdsGuard, heq]
          exact hinv.2 u
  | acqData t =>
      obtain ⟨hpc, hnone, hown2, hval2, hnext2, hpc2⟩ := step_acqData_elim h
      constructor
      · intro u hu
        have hno : s2.fm.next.owner = s.fm.next.owner := by rw [hnext2]
        rw [hno]
        rw [hpc2] at hu
        by_cases hut : u = t
        · rw [hut]
          exact hinv.1 t (Or.inl hpc)
        · simp only [updPc, if_neg hut] at hu
          exact hinv.1 u hu
      · intro u
        by_cases hut : u = t
        · rw [hut]
          simp [holdsGuard, hpc2, updPc, hown2]
        · have heq : s2.pc u = s.pc u := by rw [hpc2]; simp [updPc, hut]
          simp only [holdsGuard, heq, hown2]
          constructor
          · intro hg
            have hcon := (hinv.2 u).mp hg
            rw [hnone] at hcon
            cases hcon
          · intro hh
            exact absurd (Option.some.inj hh).symm hut
  | relGate t =>
      obtain ⟨hpc, hown, hown2, hdata2, hpc2⟩ := step_relGate_elim h
      constructor
      · intro u hu
        rw [hpc2] at hu
        by_cases hut : u = t
        · rw [hut] at hu
          simp [updPc] at hu
        · simp only [updPc, if_neg hut] at hu
          have hcon := hinv.1 u hu
          rw [hown] at hcon
          exact absurd (Option.some.inj hcon).symm hut
      · intro u
        have hdo : s2.fm.data.owner = s.fm.data.owner := by rw [hdata2]
        rw [hdo]
        by_cases hut : u = t
        · rw [hut]
          have hyes : s.fm.data.owner = some t := (hinv.2 t).mp (Or.inl hpc)
          simp [holdsGuard, hpc2, updPc, hyes]
        · have heq : s2.pc u = s.pc u := by rw [hpc2]; simp [updPc, hut]
          simp only [holdsGuard, heq]
          exact hinv.2 u
  | work t =>
      obtain ⟨hpc, hown2, hval2, hnext2, hpc2⟩ := step_work_elim h
      constructor
      · intro u hu
        rw [hpc2] at hu
        have hno : s2.fm.next.owner = s.fm.next.owner := by rw [hnext2]
        rw [hno]
        exact hinv.1 u hu
      · intro u
        rw [hown2]
        simp only [holdsGuard, hpc2]
        exact hinv.2 u
  | dropGuard t =>
      obtain ⟨hpc, hown, hown2, hval2, hnext2, hpc2⟩ := step_dropGuard_elim h
      constructor
      · intro u hu
        rw [hpc2] at hu
        have hno : s2.fm.next.owner = s.fm.next.owner := by rw [hnext2]
        rw [hno]
        by_cases hut : u = t
        · rw [hut] at hu
          simp [updPc] at hu
        · simp only [updPc, if_neg hut] at hu
          exact hinv.1 u hu
      · intro u
        rw [hown2]
        by_cases hut : u = t
        · rw [hut]
          simp [holdsGuard, hpc2, updPc]
        · have heq : s2.pc u = s.pc u := by rw [hpc2]; simp [updPc, hut]
          simp only [holdsGuard, heq]
          constructor
          · intro hg
            have hcon := (hinv.2 u).mp hg
            rw [hown] at hcon
            exact absurd (Option.some.inj hcon).symm hut
          · intro hh
            exact Option.noConfusion hh
  | callLockAgain t =>
      obtain ⟨hpc, hfm, hpc2⟩ := step_callLockAgain_elim h
      constructor
      · intro u hu
        rw [hpc2] at hu
        rw [hfm]
        by_cases hut : u = t
        · rw [hut] at hu
          simp [updPc] at hu
        · simp only [updPc, if_neg hut] at hu
          exact hinv.1 u hu
      · intro u
        rw [hfm]
        by_cases hut : u = t
        · rw [hut]
          have hyes : s.fm.data.owner = some t := (hinv.2 t).mp (Or.inr (Or.inl hpc))
          simp [holdsGuard, hpc2, updPc, hyes]
        · have heq : s2.pc u = s.pc u := by rw [hpc2]; simp [updPc, hut]
          simp only [holdsGuard, heq]
          exact hinv.2 u
  | reAcqGate t =>
      obtain ⟨hpc, hnone, hown2, hdata2, hpc2⟩ := step_reAcqGate_elim h
      constructor
      · intro u hu
        rw [hpc2] at hu
        by_cases hut : u = t
        · rw [hut] at hu
          simp [updPc] at hu
        · simp only [updPc, if_neg hut] at hu
          have hcon := hinv.1 u hu
          rw [hnone] at hcon
          cases hcon
      · intro u
        have hdo : s2.fm.data.owner = s.fm.data.owner := by rw [hdata2]
        rw [hdo]
        by_cases hut : u = t
        · rw [hut]
          have hyes : s.fm.data.owner = some t := (hinv.2 t).mp (Or.inr (Or.inr (Or.inl hpc)))
          simp [holdsGuard, hpc2, updPc, hyes]
        · have heq : s2.pc u = s.pc u := by rw [hpc2]; simp [updPc, hut]
          simp only [holdsGuard, heq]
          exact hinv.2 u
  | reAcqData t =>
      obtain ⟨hpc, hnone, _, _, _, _⟩ := step_reAcqData_elim h
      have hyes : s.fm.data.owner = some t := (hinv.2 t).mp (Or.inr (Or.inr (Or.inr hpc)))
      rw [hnone] at hyes
      cases hyes
  | fault t =>
      obtain ⟨hpc, hown, hown2, hval2, hnext2, hpc2⟩ := step_fault_elim h
      constructor
      · intro u hu
        rw [hpc2] at hu
        have hno : s2.fm.next.owner = s.fm.next.owner := by rw [hnext2]
        rw [hno]
        by_cases hut : u = t
        · rw [hut] at hu
          simp [updPc] at hu
        · simp only [updPc, if_neg hut] at hu
          exact hinv.1 u hu
      · intro u
        rw [hown2]
        by_cases hut : u = t
        · rw [hut]
          simp [holdsGuard, hpc2, updPc]
        · have heq : s2.pc u = s.pc u := by rw [hpc2]; simp [updPc, hut]
          simp only [holdsGuard, heq]
          constructor
          · intro hg
            have hcon := (hinv.2 u).mp hg
            rw [hown] at hcon
            exact absurd (Option.some.inj hcon).symm hut
          · intro hh
            exact Option.noConfusion hh

/-- The invariant holds in every state reached by a run. -/
theorem inv_run {tr : List Label} (h : run crit s tr = some s2) (hinv : Inv s) :
    Inv s2 := by
  induction tr generalizing s with
  | nil =>
      simp only [run] at h
      exact Option.some.inj h ▸ hinv
  | cons l2 ls ih =>
      simp only [run] at h
      cases hstep : step crit s l2 with
      | none => rw [hstep] at h; cases h
      | some s3 =>
          rw [hstep] at h
          exact ih h (inv_step hstep hinv)

end FairSync

namespace FairSync

variable {A : Type} {crit : Tid → A → A} {s s2 : MState A} {l : Label}

/-- A step that is not a critical-section mutation leaves the protected
value unchanged. -/
theorem step_val_other (h : step crit s l = some s2) (hnw : l.isWork = false) :
    s2.fm.data.val = s.fm.data.val := by
  cases l with
  | callLock t => rw [(step_callLock_elim h).2.1]
  | acqGate t => rw [(step_acqGate_elim h).2.2.2.1]
  | acqData t => exact (step_acqData_elim h).2.2.2.1
  | relGate t => rw [(step_relGate_elim h).2.2.2.1]
  | work t => simp [Label.isWork] at hnw
  | dropGuard t => exact (step_dropGuard_elim h).2.2.2.1
  | callLockAgain t => rw [(step_callLockAgain_elim h).2.1]
  | reAcqGate t => rw [(step_reAcqGate_elim h).2.2.2.1]
  | reAcqData t => exact (step_reAcqData_elim h).2.2.2.1
  | fault t => exact (step_fault_elim h).2.2.2.1

/-- With increment as every thread's critical section, the protected
counter grows by exactly the number of mutation events of the run: no
update is lost. -/
theorem run_val_count {s s2 : MState Nat} {tr : List Label}
    (h : run (fun _ n => n + 1) s tr = some s2) :
    s2.fm.data.val = s.fm.data.val + tr.countP Label.isWork := by
  induction tr generalizing s with
  | nil =>
      simp only [run] at h
      rw [← Option.some.inj h]
      simp
  | cons l ls ih =>
      simp only [run] at h
      cases hstep : step (fun _ n => n + 1) s l with
      | none => rw [hstep] at h; cases h
      | some s3 =>
          rw [hstep] at h
          have hv := ih h
          by_cases hw : l.isWork = true
          · obtain ⟨t, rfl⟩ : ∃ t, l = Label.work t := by
              cases l <;> simp [Label.isWork] at hw
              exact ⟨_, rfl⟩
            have h3 : s3.fm.data.val = s.fm.data.val + 1 :=
              (step_work_elim hstep).2.2.1
            have hc : (Label.work t :: ls).countP Label.isWork
                = ls.countP Label.isWork + 1 := by
              simp [List.countP_cons, Label.isWork]
            rw [hc]
            omega
          · have hnw : l.isWork = false := by
              revert hw
              cases l.isWork <;> simp
            have h3 := step_val_other hstep hnw
            have hc : (l :: ls).countP Label.isWork = ls.countP Label.isWork := by
              rw [List.countP_cons, hnw]
              simp
            rw [hc]
            omega

/-- Splitting the total mutation count of a trace over the threads that
perform them. -/
theorem countP_isWork_sum (tr : List Label) (N : Nat)
    (hb : ∀ l ∈ tr, l.isWork = true → l.tid < N) :
    tr.countP Label.isWork = ∑ t in Finset.range N, workCount tr t := by
  induction tr with
  | nil => simp [workCount]
  | cons l ls ih =>
      have hls : ∀ l2 ∈ ls, l2.isWork = true → l2.tid < N :=
        fun l2 hm hw => hb l2 (List.mem_cons_of_mem _ hm) hw
      have ihh := ih hls
      by_cases hw : l.isWork = true
      · obtain ⟨t0, rfl⟩ : ∃ t0, l = Label.work t0 := by
          cases l <;> simp [Label.isWork] at hw
          exact ⟨_, rfl⟩
        have ht0 : t0 < N := hb _ (List.mem_cons_self _ _) rfl
        have hwc : ∀ t, workCount (Label.work t0 :: ls) t
            = workCount ls t + if t0 = t then 1 else 0 := by
          intro t
          simp only [workCount, List.countP_cons]
          by_cases hq : t0 = t
          · simp [hq]
          · have : ¬ t = t0 := fun hh => hq hh.symm
            simp [hq, this]
        calc (Label.work t0 :: ls).countP Label.isWork
            = ls.countP Label.isWork + 1 := by simp [List.countP_cons, Label.isWork]
          _ = (∑ t in Finset.range N, workCount ls t) + 1 := by rw [ihh]
          _ = ∑ t in Finset.range N, (workCount ls t + if t0 = t then 1 else 0) := by
              rw [Finset.sum_add_distrib, Finset.sum_ite_eq]
              simp [Finset.mem_range, ht0]
          _ = ∑ t in Finset.range N, workCount (Label.work t0 :: ls) t := by
              refine Finset.sum_congr rfl ?_
              intro t ht
              rw [hwc t]
      · have hnw : l.isWork = false := by
          revert hw
          cases l.isWork <;> simp
        have hwc : ∀ t, workCount (l :: ls) t = workCount ls t := by
          intro t
          have hne : (l == Label.work t) = false := by
            rw [beq_eq_false_iff_ne]
            intro hh
            rw [hh] at hnw
            simp [Label.isWork] at hnw
          simp [workCount, List.countP_cons, hne]
        have hc : (l :: ls).countP Label.isWork = ls.countP Label.isWork := by
          rw [List.countP_cons, hnw]
          simp
        rw [hc, ihh]
        refine Finset.sum_congr rfl ?_
        intro t ht
        exact (hwc t).symm

end FairSync

namespace FairSync

/-- C2: mutual exclusion.  In every reachable state of any concurrent
execution, at most one thread holds a live guard over the protected
value; and with increment as the critical section, a run in which each
of `N` threads performs its mutations `M` times each ends with the
counter at exactly `N * M` — no lost updates. -/
theorem C2_mutual_exclusion_and_counter :
    (∀ (A : Type) (crit : Tid → A → A) (v : A) (tr : List Label) (s : MState A),
      run crit (initState v) tr = some s →
      ∀ t u, holdsGuard s t → holdsGuard s u → t = u) ∧
    (∀ (N M : Nat) (tr : List Label) (s : MState Nat),
      run (fun _ n => n + 1) (initState 0) tr = some s →
      (∀ l ∈ tr, l.isWork = true → l.tid < N) →
      (∀ t, t < N → workCount tr t = M) →
      s.fm.data.val = N * M) := by
  constructor
  · intro A crit v tr s hrun t u ht hu
    have hinv := inv_run hrun (inv_init v)
    have h1 := (hinv.2 t).mp ht
    have h2 := (hinv.2 u).mp hu
    rw [h1] at h2
    exact Option.some.inj h2
  · intro N M tr s hrun hb hM
    have hval := run_val_count hrun
    have hsum := countP_isWork_sum tr N hb
    have hMs : ∑ t in Finset.range N, workCount tr t = N * M := by
      rw [Finset.sum_congr rfl (fun t ht => hM t (Finset.mem_range.mp ht))]
      rw [Finset.sum_const, Finset.card_range, smul_eq_mul]
    have h0 : (initState (0 : Nat)).fm.data.val = 0 := rfl
    rw [hval, h0, hsum, hMs]
    omega

/-- Witness for C2: two threads, one increment each; the final counter
is exactly 2 * 1. -/
theorem C2_mutual_exclusion_and_counter_witness :
    (run (fun _ n => n + 1) (initState 0) (cycleTrace 0 ++ cycleTrace 1)).map
      (fun s => s.fm.data.val) = some (2 * 1) := by
  have hs : (run (fun _ n => n + 1) (initState (0 : Nat))
      (cycleTrace 0 ++ cycleTrace 1)).isSome = true := rfl
  obtain ⟨s, hsome⟩ := Option.isSome_iff_exists.mp hs
  have hv := C2_mutual_exclusion_and_counter.2 2 1 (cycleTrace 0 ++ cycleTrace 1) s
    hsome (by decide) (by decide)
  rw [hsome, Option.map_some', hv]

end FairSync

namespace FairSync

variable {A : Type} {crit : Tid → A → A} {s s2 : MState A} {l : Label}

/-- From a state in which thread 0 is blocked acquiring `data` inside a
reentrant `lock()` call while itself owning `data`, every enabled step
leaves it in exactly that situation: no event of any thread can free
the `data` lock or advance thread 0. -/
theorem deadlock_step (h : step crit s l = some s2)
    (h1 : s.pc 0 = .reWantData) (h2 : s.fm.data.owner = some 0) :
    s2.pc 0 = .reWantData ∧ s2.fm.data.owner = some 0 := by
  cases l with
  | callLock t =>
      obtain ⟨hpc, hfm, hpc2⟩ := step_callLock_elim h
      have h0t : ¬ (0 : Tid) = t := fun hh => by
        rw [← hh, h1] at hpc
        cases hpc
      refine ⟨?_, by rw [hfm]; exact h2⟩
      rw [hpc2]
      simp only [updPc, if_neg h0t]
      exact h1
  | acqGate t =>
      obtain ⟨hpc, hnone, hown2, hdata2, hpc2⟩ := step_acqGate_elim h
      have h0t : ¬ (0 : Tid) = t := fun hh => by
        rw [← hh, h1] at hpc
        cases hpc
      refine ⟨?_, by rw [hdata2]; exact h2⟩
      rw [hpc2]
      simp only [updPc, if_neg h0t]
      exact h1
  | acqData t =>
      obtain ⟨hpc, hnone, _, _, _, _⟩ := step_acqData_elim h
      rw [h2] at hnone
      cases hnone
  | relGate t =>
      obtain ⟨hpc, hown, hown2, hdata2, hpc2⟩ := step_relGate_elim h
      have h0t : ¬ (0 : Tid) = t := fun hh => by
        rw [← hh, h1] at hpc
        cases hpc
      refine ⟨?_, by rw [hdata2]; exact h2⟩
      rw [hpc2]
      simp only [updPc, if_neg h0t]
      exact h1
  | work t =>
      obtain ⟨hpc, hown2, hval2, hnext2, hpc2⟩ := step_work_elim h
      refine ⟨?_, by rw [hown2]; exact h2⟩
      rw [hpc2]
      exact h1
  | dropGuard t =>
      obtain ⟨hpc, hown, _, _, _, _⟩ := step_dropGuard_elim h
      have ht0 : (0 : Tid) = t := Option.some.inj (h2.symm.trans hown)
      rw [← ht0, h1] at hpc
      cases hpc
  | callLockAgain t =>
      obtain ⟨hpc, hfm, hpc2⟩ := step_callLockAgain_elim h
      have h0t : ¬ (0 : Tid) = t := fun hh => by
        rw [← hh, h1] at hpc
        cases hpc
      refine ⟨?_, by rw [hfm]; exact h2⟩
      rw [hpc2]
      simp only [updPc, if_neg h0t]
      exact h1
  | reAcqGate t =>
      obtain ⟨hpc, hnone, hown2, hdata2, hpc2⟩ := step_reAcqGate_elim h
      have h0t : ¬ (0 : Tid) = t := fun hh => by
        rw [← hh, h1] at hpc
        cases hpc
      refine ⟨?_, by rw [hdata2]; exact h2⟩
      rw [hpc2]
      simp only [updPc, if_neg h0t]
      exact h1
  | reAcqData t =>
      obtain ⟨hpc, hnone, _, _, _, _⟩ := step_reAcqData_elim h
      rw [h2] at hnone
      cases hnone
  | fault t =>
      obtain ⟨hpc, hown, _, _, _, _⟩ := step_fault_elim h
      have ht0 : (0 : Tid) = t := Option.some.inj (h2.symm.trans hown)
      rw [← ht0, h1] at hpc
      cases hpc

/-- The reentrant-deadlock situation persists through every possible
continuation of the execution. -/
theorem deadlock_run {tr : List Label} (h : run crit s tr = some s2)
    (h1 : s.pc 0 = .reWantData) (h2 : s.fm.data.owner = some 0) :
    s2.pc 0 = .reWantData ∧ s2.fm.data.owner = some 0 := by
  induction tr generalizing s with
  | nil =>
      simp only [run] at h
      exact Option.some.inj h ▸ ⟨h1, h2⟩
  | cons l2 ls ih =>
      simp only [run] at h
      cases hstep : step crit s l2 with
      | none => rw [hstep] at h; cases h
      | some s3 =>
          rw [hstep] at h
          obtain ⟨h3, h4⟩ := deadlock_step hstep h1 h2
          exact ih h h3 h4

/-- C4: reentrancy deadlocks.  The reentrant scenario (thread 0 calls
`lock()` again while still holding its guard) runs to the point where
thread 0 holds the gate and waits for `data`; from there, every
continuation of the execution, by any threads, leaves thread 0 blocked
in that position forever — the second call never returns.  Conversely,
a single thread doing lock, use, release, lock, use, release in
sequence completes with every lock free. -/
theorem C4_reentrancy_deadlock :
    ∀ (A : Type) (crit : Tid → A → A) (v : A),
      (run crit (initState v) dlTrace).isSome = true ∧
      (∀ sD, run crit (initState v) dlTrace = some sD →
        ∀ (tr2 : List Label) (s2 : MState A), run crit sD tr2 = some s2 →
          s2.pc 0 = .reWantData ∧ s2.fm.data.owner = some 0) ∧
      (run crit (initState v) seqTrace2).map
        (fun s => (s.pc 0, s.fm.data.owner, s.fm.next.owner))
        = some (.idle, none, none) := by
  intro A crit v
  refine ⟨rfl, ?_, rfl⟩
  intro sD hD tr2 s2 h2
  have hmap : (run crit (initState v) dlTrace).map
      (fun s => (s.pc 0, s.fm.data.owner)) = some (.reWantData, some 0) := rfl
  rw [hD, Option.map_some'] at hmap
  have hpair := Option.some.inj hmap
  exact deadlock_run h2 (congrArg Prod.fst hpair) (congrArg Prod.snd hpair)

/-- Witness for C4 at concrete inputs. -/
theorem C4_reentrancy_deadlock_witness :
    (run (fun _ (n : Nat) => n + 1) (initState 0) dlTrace).map
      (fun s => (s.pc 0, s.fm.data.owner)) = some (.reWantData, some 0) ∧
    (run (fun _ (n : Nat) => n + 1) (initState 0) seqTrace2).map
      (fun s => (s.pc 0, s.fm.data.owner, s.fm.next.owner))
      = some (.idle, none, none) := by
  have h := C4_reentrancy_deadlock Nat (fun _ n => n + 1) 0
  constructor
  · obtain ⟨sD, hD⟩ := Option.isSome_iff_exists.mp h.1
    have h2 := h.2.1 sD hD [] sD rfl
    rw [hD, Option.map_some']
    rw [h2.1, h2.2]
  · exact h.2.2

/-- C5: no poisoning.  After thread 0 mutates the value and terminates
abnormally mid-critical-section (abandoning its guard, which unwinding
releases without any poison mark), both locks are free; a subsequent
`lock()` by thread 1 succeeds without error or hang and yields a live
guard over the possibly inconsistent value `crit 0 v` left behind. -/
theorem C5_no_poisoning :
    ∀ (A : Type) (crit : Tid → A → A) (v : A),
      (run crit (initState v) faultTrace).map
        (fun s => (s.pc 0, s.fm.data.owner, s.fm.next.owner))
        = some (.dead, none, none) ∧
      (run crit (initState v) (faultTrace ++ lockCallTrace 1)).map
        (fun s => (s.pc 1, s.fm.data.owner, s.pc 0, s.fm.data.val))
        = some (.hasGuard, some 1, .dead, crit 0 v) := by
  intro A crit v
  exact ⟨rfl, rfl⟩

end FairSync

namespace FairSync

/-- C6: construction and drop symmetry.  `FairMutex::new v` (a total
function — no failure mode) wraps `v` in the `data` lock with both the
gate and the data lock unlocked; a subsequent `lock()` by any thread
`t` succeeds and sees exactly the value `v`; and after `t` drops its
guard, a subsequent `lock()` by any thread `u` succeeds without hang. -/
theorem C6_construction_drop :
    ∀ (A : Type) (crit : Tid → A → A) (v : A) (t u : Tid),
      (FairMutex.new v).next.owner = none ∧
      (FairMutex.new v).data.owner = none ∧
      (FairMutex.new v).data.val = v ∧
      (run crit (initState v) (lockCallTrace t)).map
        (fun s => (s.pc t, s.fm.data.val, s.fm.data.owner))
        = some (.hasGuard, v, some t) ∧
      (run crit (initState v) (lockCallTrace t ++ (.dropGuard t :: lockCallTrace u))).map
        (fun s => (s.pc u, s.fm.data.owner)) = some (.hasGuard, some u) := by
  intro A crit v t u
  refine ⟨rfl, rfl, rfl, ?_, ?_⟩
  · simp [run, step, lockCallTrace, initState, FairMutex.new, updPc]
  · by_cases hut : u = t
    · rw [hut]
      simp [run, step, lockCallTrace, initState, FairMutex.new, updPc]
    · have htu : ¬ t = u := fun hh => hut hh.symm
      simp [run, step, lockCallTrace, initState, FairMutex.new, updPc, hut, htu]

end FairSync

namespace FairSync

/-- C3: acquisition ordering.  In every execution: at an `acqGate t`
event the thread is at the start of `lock()` (the gate is its first
acquisition); at an `acqData t` event the thread is still holding the
gate (`next` is owned by `t`); at a `relGate t` event the data lock is
already held by `t` — the gate is released only after `data` is
acquired — and the release hands control back to the caller with the
thread holding the guard and the gate free; dropping the guard releases
`data` only and leaves the `next` mutex completely untouched. -/
theorem C3_lock_sequence :
    ∀ (A : Type) (crit : Tid → A → A) (v : A) (tr : List Label) (sEnd : MState A),
      run crit (initState v) tr = some sEnd → ∀ t,
      (∀ k sk, run crit (initState v) (tr.take k) = some sk →
        tr[k]? = some (.acqGate t) →
          sk.pc t = .wantGate ∧ sk.fm.next.owner = none) ∧
      (∀ k sk, run crit (initState v) (tr.take k) = some sk →
        tr[k]? = some (.acqData t) →
          sk.pc t = .wantData ∧ sk.fm.next.owner = some t) ∧
      (∀ k sk, run crit (initState v) (tr.take k) = some sk →
        tr[k]? = some (.relGate t) →
          sk.pc t = .holdBoth ∧ sk.fm.data.owner = some t ∧
          sk.fm.next.owner = some t) ∧
      (∀ (s s2 : MState A), step crit s (.relGate t) = some s2 →
        s2.pc t = .hasGuard ∧ s2.fm.next.owner = none ∧ s2.fm.data = s.fm.data) ∧
      (∀ (s s2 : MState A), step crit s (.dropGuard t) = some s2 →
        s2.fm.data.owner = none ∧ s2.fm.next = s.fm.next ∧ s2.pc t = .idle) := by
  intro A crit v tr sEnd hrun t
  refine ⟨?_, ?_, ?_, ?_, ?_⟩
  · intro k sk hsk hk
    obtain ⟨sk2, hstep, _⟩ := step_at hrun hk hsk
    have he := step_acqGate_elim hstep
    exact ⟨he.1, he.2.1⟩
  · intro k sk hsk hk
    obtain ⟨sk2, hstep, _⟩ := step_at hrun hk hsk
    have he := step_acqData_elim hstep
    have hinv := inv_run hsk (inv_init v)
    exact ⟨he.1, hinv.1 t (Or.inl he.1)⟩
  · intro k sk hsk hk
    obtain ⟨sk2, hstep, _⟩ := step_at hrun hk hsk
    have he := step_relGate_elim hstep
    have hinv := inv_run hsk (inv_init v)
    exact ⟨he.1, (hinv.2 t).mp (Or.inl he.1), he.2.1⟩
  · intro s s2 hstep
    have he := step_relGate_elim hstep
    refine ⟨?_, he.2.2.1, he.2.2.2.1⟩
    rw [he.2.2.2.2]
    simp [updPc]
  · intro s s2 hstep
    have he := step_dropGuard_elim hstep
    refine ⟨he.2.2.1, he.2.2.2.2.1, ?_⟩
    rw [he.2.2.2.2.2]
    simp [updPc]

/-- Witness for C3: in the concrete one-thread cycle, at the `acqData`
event (position 2) the thread still owns the gate. -/
theorem C3_lock_sequence_witness :
    (run (fun _ (n : Nat) => n + 1) (initState 0) ((cycleTrace 0).take 2)).map
      (fun s => (s.pc 0, s.fm.next.owner)) = some (.wantData, some 0) := by
  have hs : (run (fun _ (n : Nat) => n + 1) (initState 0) (cycleTrace 0)).isSome
      = true := rfl
  obtain ⟨sE, hE⟩ := Option.isSome_iff_exists.mp hs
  have hs2 : (run (fun _ (n : Nat) => n + 1) (initState 0)
      ((cycleTrace 0).take 2)).isSome = true := rfl
  obtain ⟨sk, hk⟩ := Option.isSome_iff_exists.mp hs2
  have h3 := (C3_lock_sequence Nat (fun _ n => n + 1) 0 (cycleTrace 0) sE hE 0).2.1
    2 sk hk (by rfl)
  rw [hk, Option.map_some', h3.1, h3.2]

end FairSync

namespace FairSync

/-- C1: one-ahead fairness.  If thread `tA` completes step 1 of
`lock()` (its `acqGate`, at position `i`) before thread `tC` begins
step 1 (its `callLock`, at position `j > i`), then any acquisition of
the `data` lock by `tC` (at position `m > j`) is strictly preceded by
an acquisition of `data` by `tA` and by `tA`'s gate release: `tA`
acquires the data lock and obtains its guard strictly before `tC`
does. -/
theorem C1_one_ahead_fairness :
    ∀ (A : Type) (crit : Tid → A → A) (v : A) (tr : List Label) (sEnd : MState A),
      run crit (initState v) tr = some sEnd →
      ∀ (tA tC : Tid) (i j m : Nat), tA ≠ tC →
        tr[i]? = some (.acqGate tA) →
        tr[j]? = some (.callLock tC) →
        tr[m]? = some (.acqData tC) →
        i < j → j < m →
        ∃ d r, i < d ∧ d < r ∧ r < m ∧
          tr[d]? = some (.acqData tA) ∧ tr[r]? = some (.relGate tA) := by
  intro A crit v tr sEnd hrun tA tC i j m htAC hi hj hm hij hjm
  have hmlen : m < tr.length := by
    rcases List.getElem?_eq_some_iff.mp hm with ⟨hh, _⟩
    exact hh
  have hpre : ∀ k, ∃ sk, run crit (initState v) (tr.take k) = some sk :=
    fun k => run_take_some hrun k
  obtain ⟨sj, hsj⟩ := hpre j
  obtain ⟨sj2, hstepj, hsj2⟩ := step_at hrun hj hsj
  have hsj2pc : sj2.pc tC = .wantGate := by
    rw [(step_callLock_elim hstepj).2.2]
    simp [updPc]
  obtain ⟨sm, hsm⟩ := hpre m
  obtain ⟨sm2, hstepm, _⟩ := step_at hrun hm hsm
  have hsmpc : sm.pc tC = .wantData := (step_acqData_elim hstepm).1
  have hPD : ∃ g, j + 1 ≤ g ∧ g < m ∧
      ¬ (∀ sk, run crit (initState v) (tr.take g) = some sk → sk.pc tC = .wantData) ∧
      (∀ sk, run crit (initState v) (tr.take (g + 1)) = some sk →
        sk.pc tC = .wantData) := by
    refine natCross (fun k => ∀ sk, run crit (initState v) (tr.take k) = some sk →
        sk.pc tC = .wantData) (j + 1) m hjm ?_ ?_
    · intro hPD
      have hcon := hPD sj2 hsj2
      rw [hsj2pc] at hcon
      cases hcon
    · intro sk hsk
      rw [← Option.some.inj (hsm.symm.trans hsk)]
      exact hsmpc
  obtain ⟨g, hg1, hg2, hg3, hg4⟩ := hPD
  obtain ⟨sg, hsg⟩ := hpre g
  have hglen : g < tr.length := lt_trans hg2 hmlen
  obtain ⟨lg, hlg⟩ : ∃ lg, tr[g]? = some lg := ⟨tr[g], List.getElem?_eq_getElem hglen⟩
  obtain ⟨sg2, hstepg, hsg2⟩ := step_at hrun hlg hsg
  have hsgpc : sg.pc tC ≠ .wantData := by
    intro hcon
    exact hg3 (fun sk hsk => by
      rw [← Option.some.inj (hsg.symm.trans hsk)]
      exact hcon)
  have hsg2pc : sg2.pc tC = .wantData := hg4 sg2 hsg2
  have hlgeq : lg = .acqGate tC := step_enters_wantData hstepg hsgpc hsg2pc
  rw [hlgeq] at hstepg hlg
  have hsgnone : sg.fm.next.owner = none := (step_acqGate_elim hstepg).2.1
  obtain ⟨si, hsi⟩ := hpre i
  obtain ⟨si2, hstepi, hsi2⟩ := step_at hrun hi hsi
  have hsi2own : si2.fm.next.owner = some tA := (step_acqGate_elim hstepi).2.2.1
  have hsi2pcA : si2.pc tA = .wantData := by
    rw [(step_acqGate_elim hstepi).2.2.2.2]
    simp [updPc]
  have hig : i + 1 ≤ g := by omega
  have hPN : ∃ r, i + 1 ≤ r ∧ r < g ∧
      ¬ (∀ sk, run crit (initState v) (tr.take r) = some sk →
        sk.fm.next.owner ≠ some tA) ∧
      (∀ sk, run crit (initState v) (tr.take (r + 1)) = some sk →
        sk.fm.next.owner ≠ some tA) := by
    refine natCross (fun k => ∀ sk, run crit (initState v) (tr.take k) = some sk →
        sk.fm.next.owner ≠ some tA) (i + 1) g hig ?_ ?_
    · intro hPN
      exact hPN si2 hsi2 hsi2own
    · intro sk hsk
      rw [← Option.some.inj (hsg.symm.trans hsk), hsgnone]
      intro hcon
      cases hcon
  obtain ⟨r, hr1, hr2, hr3, hr4⟩ := hPN
  obtain ⟨sr, hsr⟩ := hpre r
  have hrlen : r < tr.length := by omega
  obtain ⟨lr, hlr⟩ : ∃ lr, tr[r]? = some lr := ⟨tr[r], List.getElem?_eq_getElem hrlen⟩
  obtain ⟨sr2, hstepr, hsr2⟩ := step_at hrun hlr hsr
  have hsrown : sr.fm.next.owner = some tA := by
    by_contra hcon
    exact hr3 (fun sk hsk => by
      rw [← Option.some.inj (hsr.symm.trans hsk)]
      exact hcon)
  have hsr2own : sr2.fm.next.owner ≠ some tA := hr4 sr2 hsr2
  have hlreq : lr = .relGate tA := by
    by_contra hner
    exact hsr2own (step_next_stays hstepr hsrown hner)
  rw [hlreq] at hstepr hlr
  have hsrpcA : sr.pc tA = .holdBoth := (step_relGate_elim hstepr).1
  have hir : i + 1 ≤ r := hr1
  have hPH : ∃ d, i + 1 ≤ d ∧ d < r ∧
      ¬ (∀ sk, run crit (initState v) (tr.take d) = some sk →
        sk.pc tA = .holdBoth) ∧
      (∀ sk, run crit (initState v) (tr.take (d + 1)) = some sk →
        sk.pc tA = .holdBoth) := by
    refine natCross (fun k => ∀ sk, run crit (initState v) (tr.take k) = some sk →
        sk.pc tA = .holdBoth) (i + 1) r hir ?_ ?_
    · intro hPH
      have hcon := hPH si2 hsi2
      rw [hsi2pcA] at hcon
      cases hcon
    · intro sk hsk
      rw [← Option.some.inj (hsr.symm.trans hsk)]
      exact hsrpcA
  obtain ⟨d, hd1, hd2, hd3, hd4⟩ := hPH
  obtain ⟨sd, hsd⟩ := hpre d
  have hdlen : d < tr.length := by omega
  obtain ⟨ld, hld⟩ : ∃ ld, tr[d]? = some ld := ⟨tr[d], List.getElem?_eq_getElem hdlen⟩
  obtain ⟨sd2, hstepd, hsd2⟩ := step_at hrun hld hsd
  have hsdpc : sd.pc tA ≠ .holdBoth := by
    intro hcon
    exact hd3 (fun sk hsk => by
      rw [← Option.some.inj (hsd.symm.trans hsk)]
      exact hcon)
  have hsd2pc : sd2.pc tA = .holdBoth := hd4 sd2 hsd2
  have hldeq : ld = .acqData tA := step_enters_holdBoth hstepd hsdpc hsd2pc
  rw [hldeq] at hld
  exact ⟨d, r, by omega, by omega, by omega, hld, hlr⟩

end FairSync

namespace FairSync

/-- Witness for C1 on a concrete interleaving: thread 0 acquires the
gate at position 1, thread 1 calls `lock()` at position 2 and acquires
`data` at position 7; thread 0's `data` acquisition and gate release
land strictly in between. -/
theorem C1_one_ahead_fairness_witness :
    ∃ d r, 1 < d ∧ d < r ∧ r < 7 ∧
      c1DemoTrace[d]? = some (.acqData 0) ∧ c1DemoTrace[r]? = some (.relGate 0) := by
  have hs : (run (fun _ (n : Nat) => n + 1) (initState 0) c1DemoTrace).isSome
      = true := rfl
  obtain ⟨sE, hE⟩ := Option.isSome_iff_exists.mp hs
  exact C1_one_ahead_fairness Nat (fun _ n => n + 1) 0 c1DemoTrace sE hE 0 1 1 2 7
    (by decide) rfl rfl rfl (by decide) (by decide)

end FairSync
